import Mathlib

/-!
# Grading harness of lc3tools (`src/frontend/grader/framework.cpp`)

A shallow embedding of the grader framework: the suffix test `endsWith`, the
output sink `BufferedPrinter`, the input source `StringInputter`, the output
comparator `outputCompare`, the scoring arithmetic of `main` (single-precision
floating point, modelled exactly over the rationals) and the grading driver
`main` itself, followed by the properties proved about them.

Conventions.
* `std::string` and `std::vector<char>` are `List Char`.
* `uint32_t` values are `Nat`; arithmetic that can wrap carries an explicit
  `% 2 ^ 32`.
* `float` is IEEE-754 binary32 with round-to-nearest, ties-to-even.  A finite
  binary32 value is represented by the rational number it denotes, and every
  conversion and operation is the exact rational result followed by
  `f32round`.
-/

namespace Grader

/-! ## IEEE-754 binary32 rounding -/

/-- Nearest integer to `x`, ties going to the even neighbour (the rounding of
    the significand under round-to-nearest-even). -/
def roundNE (x : ℚ) : ℤ :=
  let f := ⌊x⌋
  let r := x - f
  if r < 1 / 2 then f
  else if 1 / 2 < r then f + 1
  else if f % 2 = 0 then f
  else f + 1

/-- Search for the binary exponent of a positive rational by repeated halving
    or doubling; the first argument bounds the number of steps. -/
def ilog2Aux : Nat → ℚ → ℤ
  | 0, _ => 0
  | k + 1, x =>
    if 2 ≤ x then ilog2Aux k (x / 2) + 1
    else if x < 1 then ilog2Aux k (x * 2) - 1
    else 0

/-- Binary exponent of a positive rational: the `e` with `2 ^ e ≤ x < 2 ^ (e + 1)`. -/
def ilog2 (x : ℚ) : ℤ := ilog2Aux (x.num.natAbs + x.den) x

/-- Round a non-negative rational to the nearest binary32 value (24-bit
    significand, minimum exponent `-126`, ties to even).  Every value this
    development rounds is below `2 ^ 33`, far from the overflow threshold
    `2 ^ 128`, so overflow to infinity is not represented. -/
def f32round (x : ℚ) : ℚ :=
  if x ≤ 0 then 0
  else
    let e := max (ilog2 x) (-126)
    (roundNE (x / 2 ^ (e - 23)) : ℚ) * 2 ^ (e - 23)

/-! ## Scoring arithmetic (`main`, lines 138-139) -/

/-- Lines 138-139 of `framework.cpp`:
    `float percent_points_earned = ((float) verify_valid) / verify_count;`
    `uint32_t points_earned = (uint32_t) (percent_points_earned * test.points);`
    Both counters and the weight are converted to `float`, the quotient and the
    product are rounded to `float`, and the product is truncated to `uint32_t`.
    The result is `none` when the conversion to `uint32_t` is undefined: the
    quotient is NaN or infinite (`verify_count = 0`) or the product does not
    fit in 32 bits. -/
def pointsEarned (verify_valid verify_count points : Nat) : Option Nat :=
  if verify_count = 0 then none
  else
    let percent_points_earned : ℚ := f32round (f32round verify_valid / f32round verify_count)
    let product : ℚ := f32round (percent_points_earned * f32round points)
    if product < 2 ^ 32 then some ⌊product⌋₊ else none

/-- The score the specification states: `floor((verify_valid / verify_count) * weight)`
    with the quotient and the product taken as exact rationals. -/
def exactPoints (verify_valid verify_count points : Nat) : Nat :=
  ⌊((verify_valid : ℚ) / (verify_count : ℚ)) * (points : ℚ)⌋₊

/-! ## `endsWith` (lines 22-26) -/

/-- The three-iterator `std::equal(first1, last1, first2)`: walks the first range
    and compares it, element by element, with the range starting at `first2`.
    Reading past the end of the second range is undefined in C++; `endsWith`
    excludes it by its size guard, and the model answers `false` there. -/
def stdEqual : List Char → List Char → Bool
  | [], _ => true
  | _ :: _, [] => false
  | a :: as, b :: bs => if a = b then stdEqual as bs else false

/-- Lines 22-26:
    `if(suffix.size() > search.size()) { return false; }`
    `return std::equal(suffix.rbegin(), suffix.rend(), search.rbegin());` -/
def endsWith (search suffix : List Char) : Bool :=
  if suffix.length > search.length then false
  else stdEqual suffix.reverse search.reverse

/-! ## `BufferedPrinter` (lines 28-42) -/

/-- Modelled from the spec: the `BufferedPrinter` class declaration lives in
    `framework.h`; it holds the growable character buffer `display_buffer` and
    the echo flag `print_output` fixed at construction. -/
structure BufferedPrinter where
  display_buffer : List Char
  print_output : Bool
deriving DecidableEq, Repr

/-- Lines 28-34: `print` copies the text to the back of `display_buffer` and, when
    `print_output` is set, also writes it to `std::cout` (the second component). -/
def BufferedPrinter.print (p : BufferedPrinter) (cout : List Char) (string : List Char) :
    BufferedPrinter × List Char :=
  ({ p with display_buffer := p.display_buffer ++ string },
   if p.print_output then cout ++ string else cout)

/-- Lines 36-42: `newline` pushes one line feed and, when `print_output` is set,
    also writes it to `std::cout`. -/
def BufferedPrinter.newline (p : BufferedPrinter) (cout : List Char) :
    BufferedPrinter × List Char :=
  ({ p with display_buffer := p.display_buffer ++ ['\n'] },
   if p.print_output then cout ++ ['\n'] else cout)

/-- One call made on a printer by the simulated machine. -/
inductive PrinterCall where
  | print (string : List Char)
  | newline
deriving DecidableEq, Repr

/-- Perform one call. -/
def BufferedPrinter.call (s : BufferedPrinter × List Char) : PrinterCall → BufferedPrinter × List Char
  | .print string => s.1.print s.2 string
  | .newline => s.1.newline s.2

/-- Perform a sequence of calls in order. -/
def BufferedPrinter.calls (p : BufferedPrinter) (cout : List Char) (cs : List PrinterCall) :
    BufferedPrinter × List Char :=
  cs.foldl BufferedPrinter.call (p, cout)

/-- The characters a call contributes to the buffer. -/
def PrinterCall.text : PrinterCall → List Char
  | .print string => string
  | .newline => ['\n']

/-! ## Input sources (lines 44-65) -/

/-- Lines 44-48: `FileInputter::getChar` ignores its argument and returns `false`;
    the result pairs the return value with the (unchanged) output character. -/
def FileInputter.getChar (c : Char) : Bool × Char := (false, c)

/-- Modelled from the spec: the `StringInputter` class declaration lives in
    `framework.h`; it holds the source string and a cursor `pos`, taken here
    as an unbounded index. -/
structure StringInputter where
  source : List Char
  pos : Nat
deriving DecidableEq, Repr

/-- Lines 50-54: the constructor stores the source and sets `pos = 0`. -/
def StringInputter.new (source : List Char) : StringInputter :=
  { source := source, pos := 0 }

/-- Lines 56-65: `getChar(char & c)`.  Returns the return value, the character
    held by `c` after the call, and the inputter after the call. -/
def StringInputter.getChar (s : StringInputter) (c : Char) : Bool × Char × StringInputter :=
  if s.pos = s.source.length then (false, c, s)
  else (true, s.source.getD s.pos c, { s with pos := s.pos + 1 })

/-- The state (output character, inputter) after `k` successive `getChar` calls. -/
def StringInputter.after : Nat → StringInputter → Char → Char × StringInputter
  | 0, s, c => (c, s)
  | k + 1, s, c => StringInputter.after k (s.getChar c).2.2 (s.getChar c).2.1

/-! ## `outputCompare` (lines 161-174) -/

/-- The banner appended to the expected text (line 164). -/
def haltBanner : List Char := "\n\n--- Halting the LC-3 ---\n\n".toList

/-- The loop of lines 168-171.  The index `i` is a `uint32_t`, so `i += 1` wraps
    modulo `2 ^ 32`, while `check.size()` is a `size_t`.  The first argument
    bounds the number of iterations performed; `none` means the loop has not
    returned within that many iterations. -/
def outputCompareLoop (display_buffer check : List Char) : Nat → Nat → Option Bool
  | 0, _ => none
  | fuel + 1, i =>
    if i < check.length then
      if display_buffer[i]? ≠ check[i]? then some false
      else outputCompareLoop display_buffer check fuel ((i + 1) % 2 ^ 32)
    else some true

/-- Lines 161-174: `outputCompare(printer, check)`, on the printer's buffer. -/
def outputCompare (fuel : Nat) (printer : BufferedPrinter) (check : List Char) : Option Bool :=
  let check := check ++ haltBanner
  if printer.display_buffer.length ≠ check.length then some false
  else outputCompareLoop printer.display_buffer check fuel 0

/-! ## The grading driver (`main`, lines 67-159) -/

/-- The global counters `verify_count` and `verify_valid` (lines 18-19). -/
structure Counters where
  verify_count : Nat
  verify_valid : Nat
deriving DecidableEq, Repr

/-- What a test body that ends does: it returns, leaving the machine and the
    counters it incremented from zero; it raises `lc3::utils::exception`, which
    line 131 catches; or it raises an exception of another type, which nothing
    catches.  A body that never returns gives the run no exit status and is not
    an outcome here. -/
inductive BodyResult (Sim : Type) where
  | returned (sim : Sim) (counters : Counters)
  | threw (what : List Char)
  | threwOther (what : List Char)

/-- Modelled from the spec: the `TestCase` declaration lives in `framework.h`;
    a test case has a name, an unsigned 32-bit point weight, a randomize flag
    and a test body taking the machine. -/
structure TestCase (Sim : Type) where
  name : List Char
  points : Nat
  randomize : Bool
  test_func : Sim → BodyResult Sim

/-- Modelled from the spec: the external collaborators of the driver, whose code
    is outside `framework.cpp`: the argument parser, the assembler
    (`convertBin`, `assemble`, each returning `(success, objectFilename)`), the
    `setup` hook (the registry it leaves in `tests`), the simulator
    (construction, `randomize`, `loadObjectFile`) and the per-test hooks.  Each
    of them is a function that returns: a collaborator or hook that raises an
    exception or does not return is outside the runs described here. -/
structure Env (Sim : Type) where
  parseCLIArgs : List (List Char) → List (List Char × List Char)
  convertBin : List Char → Bool × List Char
  assemble : List Char → Bool × List Char
  setup : List (TestCase Sim)
  newSim : BufferedPrinter → Sim
  testBringup : Sim → Sim
  randomize : Sim → Sim
  loadObjectFile : Sim → List Char → Bool × Sim
  testTeardown : Sim → Counters → Counters

/-- The calls the driver makes on its collaborators, and the per-test score it
    reports, in the order they happen. -/
inductive Event where
  | convertBin (filename : List Char)
  | assemble (filename : List Char)
  | setup
  | testBringup (test : List Char)
  | randomize (test : List Char)
  | loadObjectFile (obj_filename : List Char) (ok : Bool)
  | test_func (test : List Char) (threw : Bool)
  | testTeardown (test : List Char)
  | pointsEarned (test : List Char) (points_earned : Option Nat)
deriving DecidableEq, Repr

/-- State of the assembly loop (lines 80-95). -/
structure AsmState where
  valid_program : Bool
  obj_filenames : List (List Char)
  trace : List Event
deriving DecidableEq, Repr

/-- Line 84: `filename[0] != '-'`; on an empty `std::string` index `0` reads the
    terminating null character. -/
def positional (filename : List Char) : Bool :=
  filename.headD (Char.ofNat 0) != '-'

/-- Lines 86-90: the assembler call made for a positional filename, and its result. -/
def asmResult {Sim : Type} (env : Env Sim) (filename : List Char) : Bool × List Char :=
  if endsWith filename ".bin".toList then env.convertBin filename else env.assemble filename

/-- The assembler call of lines 86-90 as an event. -/
def asmEvent (filename : List Char) : Event :=
  if endsWith filename ".bin".toList then Event.convertBin filename else Event.assemble filename

/-- Lines 83-94: one iteration of the assembly loop. -/
def assembleArg {Sim : Type} (env : Env Sim) (st : AsmState) (filename : List Char) : AsmState :=
  if positional filename then
    let result := asmResult env filename
    { valid_program := if !result.1 then false else st.valid_program
      obj_filenames := st.obj_filenames ++ [result.2]
      trace := st.trace ++ [asmEvent filename] }
  else st

/-- Lines 80-95: the assembly loop over `argv[1 .. argc-1]`. -/
def assembleArgs {Sim : Type} (env : Env Sim) (args : List (List Char)) : AsmState :=
  args.foldl (assembleArg env) { valid_program := true, obj_filenames := [], trace := [] }

/-- Lines 122-127: load the object files in order.  The first component is
    `none` when a load fails, at which point `main` returns `2`; the second is
    the list of `loadObjectFile` calls made. -/
def loadObjects {Sim : Type} (env : Env Sim) : Sim → List (List Char) → Option Sim × List Event
  | sim, [] => (some sim, [])
  | sim, obj_filename :: rest =>
    if (env.loadObjectFile sim obj_filename).1 then
      ((loadObjects env (env.loadObjectFile sim obj_filename).2 rest).1,
       Event.loadObjectFile obj_filename true
         :: (loadObjects env (env.loadObjectFile sim obj_filename).2 rest).2)
    else (none, [Event.loadObjectFile obj_filename false])

/-- The accumulators of lines 99-100 together with the trace so far.  A total is
    `none` once a score with an undefined `uint32_t` conversion was added. -/
structure Totals where
  total_points_earned : Option Nat
  total_possible_points : Nat
  trace : List Event
deriving DecidableEq, Repr

/-- Line 144: `total_points_earned += points_earned` on `uint32_t`. -/
def addPoints (total points_earned : Option Nat) : Option Nat :=
  match total, points_earned with
  | some t, some p => some ((t + p) % 2 ^ 32)
  | _, _ => none

/-- The machine a test body runs on before the object files are loaded
    (lines 104-120): constructed with a fresh printer, brought up, and
    randomized when the test asks for it. -/
def freshSim {Sim : Type} (env : Env Sim) (print_output : Bool) (test : TestCase Sim) : Sim :=
  let sim_printer : BufferedPrinter := { display_buffer := [], print_output := print_output }
  let simulator := env.testBringup (env.newSim sim_printer)
  if test.randomize then env.randomize simulator else simulator

/-- The calls made at the start of an iteration (lines 109-120). -/
def bringupEvents {Sim : Type} (test : TestCase Sim) : List Event :=
  Event.testBringup test.name :: (if test.randomize then [Event.randomize test.name] else [])

/-- The status a POSIX shell reports for a process ended by `SIGABRT`
    (`128 + 6`): an exception that nothing catches ends in `std::terminate`,
    which aborts the process. -/
def abortStatus : Nat := 134

/-- Lines 104-145: one iteration of the test loop.  `Except.error` carries the
    exit status and the trace at the point where the run ends early: status `2`
    when `main` returns on a failed load (line 125), `abortStatus` when the
    test body raises an exception that line 131 does not catch. -/
def runTest {Sim : Type} (env : Env Sim) (print_output : Bool) (obj_filenames : List (List Char))
    (st : Totals) (test : TestCase Sim) : Except (Nat × List Event) Totals :=
  let simulator := freshSim env print_output test
  let possible := (st.total_possible_points + test.points) % 2 ^ 32
  let loaded := loadObjects env simulator obj_filenames
  let trace := st.trace ++ bringupEvents test ++ loaded.2
  match loaded.1 with
  | none => Except.error (2, trace)
  | some simulator =>
    match test.test_func simulator with
    | BodyResult.threwOther _ =>
      Except.error (abortStatus, trace ++ [Event.test_func test.name true])
    | BodyResult.threw _ =>
      Except.ok { total_points_earned := st.total_points_earned
                  total_possible_points := possible
                  trace := trace ++ [Event.test_func test.name true] }
    | BodyResult.returned simulator counters =>
      let counters := env.testTeardown simulator counters
      let points_earned := pointsEarned counters.verify_valid counters.verify_count test.points
      Except.ok { total_points_earned := addPoints st.total_points_earned points_earned
                  total_possible_points := possible
                  trace := trace ++ [Event.test_func test.name false, Event.testTeardown test.name,
                                     Event.pointsEarned test.name points_earned] }

/-- Lines 103-145: the loop over the registry, in registration order. -/
def runTests {Sim : Type} (env : Env Sim) (print_output : Bool) (obj_filenames : List (List Char)) :
    Totals → List (TestCase Sim) → Except (Nat × List Event) Totals
  | st, [] => Except.ok st
  | st, test :: rest =>
    match runTest env print_output obj_filenames st test with
    | Except.error stop => Except.error stop
    | Except.ok st1 => runTests env print_output obj_filenames st1 rest

/-- The summary line of lines 148-156: both totals and the printed percentage
    `percent_points_earned * 100`. -/
structure Summary where
  total_points_earned : Option Nat
  total_possible_points : Nat
  percent : Option ℚ
deriving DecidableEq, Repr

/-- Lines 149-156. -/
def summarize (total_points_earned : Option Nat) (total_possible_points : Nat) : Summary :=
  let percent_points_earned : Option ℚ :=
    if total_possible_points = 0 then some 0
    else total_points_earned.map
      (fun e => f32round (f32round e / f32round total_possible_points))
  { total_points_earned := total_points_earned
    total_possible_points := total_possible_points
    percent := percent_points_earned.map (fun p => f32round (p * 100)) }

/-- What a run of `main` leaves behind: the exit status, the object names
    collected, the trace of calls, and the summary (absent when the run ended
    before printing it). -/
structure Outcome where
  status : Nat
  obj_filenames : List (List Char)
  trace : List Event
  summary : Option Summary
deriving DecidableEq, Repr

/-- Lines 67-159: `main(argc, argv)`, with `argv` given as the list of its
    `argc` strings. -/
def main {Sim : Type} (env : Env Sim) (argv : List (List Char)) : Outcome :=
  let print_output := (env.parseCLIArgs argv).any (fun arg => arg.1 == "print-output".toList)
  let asm := assembleArgs env (argv.drop 1)
  let start : Totals :=
    { total_points_earned := some 0, total_possible_points := 0, trace := asm.trace ++ [Event.setup] }
  if asm.valid_program then
    match runTests env print_output asm.obj_filenames start env.setup with
    | Except.error stop =>
      { status := stop.1, obj_filenames := asm.obj_filenames, trace := stop.2, summary := none }
    | Except.ok st =>
      { status := 0, obj_filenames := asm.obj_filenames, trace := st.trace
        summary := some (summarize st.total_points_earned st.total_possible_points) }
  else
    { status := 0, obj_filenames := asm.obj_filenames, trace := start.trace
      summary := some (summarize start.total_points_earned start.total_possible_points) }

/-- The test cases whose iteration the loop starts in a run that reaches the
    summary: the whole registry when every file assembled (line 102), none
    otherwise. -/
def startedTests {Sim : Type} (env : Env Sim) (argv : List (List Char)) : List (TestCase Sim) :=
  if (assembleArgs env (argv.drop 1)).valid_program then env.setup else []

/-! ## The claim's words about load calls, stated on the collaborators -/

/-- A test body that returns after `verify_count` verifications, `verify_valid`
    of them successful. -/
def scoringTest (name : List Char) (points verify_count verify_valid : Nat) : TestCase Unit :=
  { name := name, points := points, randomize := false
    test_func := fun sim => BodyResult.returned sim
      { verify_count := verify_count, verify_valid := verify_valid } }

/-- A test body that raises a machine fault. -/
def faultingTest (name : List Char) (points : Nat) : TestCase Unit :=
  { name := name, points := points, randomize := false
    test_func := fun _ => BodyResult.threw "fault".toList }

/-- Collaborators over a trivial machine: the assembler succeeds exactly on the
    files `asmOk` accepts and names the object `<file>.obj`, the machine loads
    exactly the objects `loadOk` accepts, the hooks do nothing, and `setup`
    registers `tests`. -/
def simpleEnv (tests : List (TestCase Unit)) (asmOk loadOk : List Char → Bool) : Env Unit :=
  { parseCLIArgs := fun _ => []
    convertBin := fun f => (asmOk f, f ++ ".obj".toList)
    assemble := fun f => (asmOk f, f ++ ".obj".toList)
    setup := tests
    newSim := fun _ => ()
    testBringup := fun sim => sim
    randomize := fun sim => sim
    loadObjectFile := fun _ f => (loadOk f, ())
    testTeardown := fun _ counters => counters }

/-- The scenario of the specification: weights 10 and 20, the first test passes
    5 of 10 verifications, the second raises a fault. -/
def scenarioEnv : Env Unit :=
  simpleEnv [scoringTest "first".toList 10 10 5, faultingTest "second".toList 20]
    (fun _ => true) (fun _ => true)

/-- Two tests of weight `2 ^ 31`: the first passes its only verification, the
    second raises a fault. -/
def wrapEnv : Env Unit :=
  simpleEnv [scoringTest "a".toList 2147483648 1 1, faultingTest "b".toList 2147483648]
    (fun _ => true) (fun _ => true)

/-- The command line `grader prog.asm`. -/
def oneFileArgv : List (List Char) := ["grader".toList, "prog.asm".toList]

/-- The scenario's registry with an assembler that rejects every file. -/
def brokenAsmEnv : Env Unit :=
  simpleEnv [scoringTest "first".toList 10 10 5, faultingTest "second".toList 20]
    (fun _ => false) (fun _ => true)

/-- One test of weight 22 that passes 13 of its 22 verifications. -/
def roundingEnv : Env Unit :=
  simpleEnv [scoringTest "t".toList 22 22 13] (fun _ => true) (fun _ => true)

/-! ## Properties of the rounding model -/

theorem roundNE_floor_le (x : ℚ) : ⌊x⌋ ≤ roundNE x := by
  unfold roundNE
  simp only
  split_ifs <;> omega

theorem roundNE_le_floor_succ (x : ℚ) : roundNE x ≤ ⌊x⌋ + 1 := by
  unfold roundNE
  simp only
  split_ifs <;> omega

theorem roundNE_intCast (n : ℤ) : roundNE (n : ℚ) = n := by
  unfold roundNE
  simp

theorem roundNE_abs_sub_le (x : ℚ) : |(roundNE x : ℚ) - x| ≤ 1 / 2 := by
  have h1 := Int.floor_le x
  have h2 := Int.lt_floor_add_one x
  unfold roundNE
  simp only
  rw [abs_le]
  split_ifs with ha hb hc
  · constructor <;> linarith
  · push_cast
    constructor <;> linarith
  · have hr : x - ⌊x⌋ = 1 / 2 := le_antisymm (not_lt.mp hb) (not_lt.mp ha)
    constructor <;> linarith
  · have hr : x - ⌊x⌋ = 1 / 2 := le_antisymm (not_lt.mp hb) (not_lt.mp ha)
    push_cast
    constructor <;> linarith

theorem roundNE_mono {x y : ℚ} (h : x ≤ y) : roundNE x ≤ roundNE y := by
  rcases (Int.floor_mono h).lt_or_eq with hlt | heq
  · have h1 := roundNE_le_floor_succ x
    have h2 := roundNE_floor_le y
    omega
  · unfold roundNE
    simp only
    rw [heq]
    have hxy : x - ⌊y⌋ ≤ y - ⌊y⌋ := by linarith
    split_ifs <;> first | omega | (exfalso; linarith)

theorem ilog2Aux_spec : ∀ (k : Nat) (x : ℚ), 0 < x → (1 ≤ x → x < 2 ^ (k + 1)) →
    (x < 1 → x⁻¹ ≤ 2 ^ k) →
    (2 : ℚ) ^ (ilog2Aux k x) ≤ x ∧ x < (2 : ℚ) ^ (ilog2Aux k x + 1) := by
  intro k
  induction k with
  | zero =>
    intro x hx h1 h2
    have hx1 : 1 ≤ x := by
      by_contra hlt
      have hlt1 : x < 1 := not_le.mp hlt
      have hinv := h2 hlt1
      have : 1 < x⁻¹ := (one_lt_inv₀ hx).mpr hlt1
      simp at hinv
      linarith
    have hlt := h1 hx1
    simp only [ilog2Aux, zpow_zero, zero_add, zpow_one]
    norm_num at hlt
    exact ⟨hx1, hlt⟩
  | succ k ih =>
    intro x hx h1 h2
    unfold ilog2Aux
    split_ifs with ha hb
    · have hlt := h1 (by linarith)
      have hrec := ih (x / 2) (by positivity) (fun _ => by
        rw [pow_succ] at hlt
        linarith) (fun hc => by linarith)
      obtain ⟨r1, r2⟩ := hrec
      constructor
      · rw [zpow_add_one₀ (by norm_num)]
        linarith
      · rw [zpow_add_one₀ (by norm_num)]
        linarith
    · have hinv := h2 hb
      have hrec := ih (x * 2) (by positivity) (fun _ => by
        have : (2 : ℚ) ≤ 2 ^ (k + 1) := by
          calc (2 : ℚ) = 2 ^ 1 := by norm_num
            _ ≤ 2 ^ (k + 1) := pow_le_pow_right₀ (by norm_num) (by omega)
        linarith) (fun _ => by
        rw [mul_inv, pow_succ] at *
        have : (2 : ℚ)⁻¹ = 1 / 2 := by norm_num
        rw [this]
        linarith)
      obtain ⟨r1, r2⟩ := hrec
      have e1 : ilog2Aux k (x * 2) - 1 + 1 = ilog2Aux k (x * 2) := by ring
      have e2 : (2 : ℚ) ^ (ilog2Aux k (x * 2)) = 2 ^ (ilog2Aux k (x * 2) - 1) * 2 := by
        rw [← zpow_add_one₀ (by norm_num), e1]
      constructor
      · rw [e2] at r1
        linarith
      · rw [e1]
        rw [zpow_add_one₀ (by norm_num)] at r2
        linarith
    · simp only [zpow_zero, zero_add, zpow_one]
      exact ⟨not_lt.mp hb, not_le.mp ha⟩

theorem ilog2_spec {x : ℚ} (hx : 0 < x) :
    (2 : ℚ) ^ (ilog2 x) ≤ x ∧ x < (2 : ℚ) ^ (ilog2 x + 1) := by
  unfold ilog2
  have hnum : 0 < x.num := Rat.num_pos.mpr hx
  have hden : (0 : ℚ) < x.den := by exact_mod_cast x.den_pos
  have hden1 : (1 : ℚ) ≤ x.den := by exact_mod_cast x.den_pos
  have hmul : x * x.den = x.num.natAbs := by
    have hn : (x.num.natAbs : ℤ) = x.num := Int.natAbs_of_nonneg hnum.le
    calc x * x.den = (x.num : ℚ) := Rat.mul_den_eq_num x
      _ = ((x.num.natAbs : ℤ) : ℚ) := by rw [hn]
      _ = (x.num.natAbs : ℚ) := Int.cast_natCast _
  have hn1 : (1 : ℚ) ≤ x.num.natAbs := by
    have : 1 ≤ x.num.natAbs := Int.natAbs_pos.mpr hnum.ne'
    exact_mod_cast this
  have pow_gt : ∀ n : Nat, (n : ℚ) < 2 ^ n := fun n => by exact_mod_cast Nat.lt_two_pow n
  apply ilog2Aux_spec _ x hx
  · intro _
    have h1 : x ≤ x.num.natAbs := by
      rw [← hmul]
      nlinarith
    have h2 : (2 : ℚ) ^ x.num.natAbs ≤ 2 ^ (x.num.natAbs + x.den + 1) :=
      pow_le_pow_right₀ (by norm_num) (by omega)
    linarith [pow_gt x.num.natAbs]
  · intro _
    have h1 : x⁻¹ ≤ x.den := by
      have hinv : 0 ≤ x⁻¹ := by positivity
      have e : x⁻¹ * (x * x.den) = x.den := by
        field_simp
      calc x⁻¹ = x⁻¹ * 1 := by ring
        _ ≤ x⁻¹ * (x * x.den) := by
          apply mul_le_mul_of_nonneg_left _ hinv
          rw [hmul]
          exact hn1
        _ = x.den := e
    have h2 : (2 : ℚ) ^ x.den ≤ 2 ^ (x.num.natAbs + x.den) :=
      pow_le_pow_right₀ (by norm_num) (by omega)
    linarith [pow_gt x.den]

theorem ilog2_mono {x y : ℚ} (hx : 0 < x) (h : x ≤ y) : ilog2 x ≤ ilog2 y := by
  have h1 := (ilog2_spec hx).1
  have h2 := (ilog2_spec (lt_of_lt_of_le hx h)).2
  have h3 : (2 : ℚ) ^ (ilog2 x) < 2 ^ (ilog2 y + 1) := by linarith
  have := (zpow_lt_zpow_iff_right₀ (by norm_num : (1 : ℚ) < 2)).mp h3
  omega

theorem two_zpow_split (e : ℤ) (k : ℕ) : (2 : ℚ) ^ e = 2 ^ k * 2 ^ (e - k) := by
  rw [← zpow_natCast, ← zpow_add₀ (two_ne_zero)]
  congr 1
  ring

theorem f32round_of_nonpos {x : ℚ} (hx : x ≤ 0) : f32round x = 0 := by
  simp [f32round, hx]

theorem f32round_of_pos {x : ℚ} (hx : 0 < x) :
    f32round x = (roundNE (x / 2 ^ (max (ilog2 x) (-126) - 23)) : ℚ)
      * 2 ^ (max (ilog2 x) (-126) - 23) := by
  simp [f32round, not_le.mpr hx]

theorem f32round_nonneg (x : ℚ) : 0 ≤ f32round x := by
  rcases le_or_lt x 0 with hx | hx
  · rw [f32round_of_nonpos hx]
  · rw [f32round_of_pos hx]
    apply mul_nonneg _ (by positivity)
    have h0 : (0 : ℚ) ≤ x / 2 ^ (max (ilog2 x) (-126) - 23) := by positivity
    have := roundNE_mono h0
    have hz : roundNE ((0 : ℤ) : ℚ) = 0 := roundNE_intCast 0
    simp only [Int.cast_zero] at hz
    rw [hz] at this
    exact_mod_cast this

theorem f32round_le_zpow {x : ℚ} (hx : 0 < x) :
    f32round x ≤ 2 ^ (max (ilog2 x) (-126) + 1) := by
  rw [f32round_of_pos hx]
  set e := max (ilog2 x) (-126) with he
  have hs : (0 : ℚ) < 2 ^ (e - 23) := by positivity
  have hx2 : x < 2 ^ (e + 1) :=
    lt_of_lt_of_le (ilog2_spec hx).2
      (zpow_le_zpow_right₀ (by norm_num) (by have := le_max_left (ilog2 x) (-126); omega))
  have hsplit : (2 : ℚ) ^ (e + 1) = 2 ^ 24 * 2 ^ (e - 23) := by
    rw [two_zpow_split (e + 1) 24]
    congr 2
    push_cast
    ring
  have hq : x / 2 ^ (e - 23) ≤ ((2 ^ 24 : ℤ) : ℚ) := by
    have hc : ((2 ^ 24 : ℤ) : ℚ) = 2 ^ 24 := by norm_num
    rw [div_le_iff₀ hs, hc, ← hsplit]
    exact hx2.le
  have hr := roundNE_mono hq
  rw [roundNE_intCast] at hr
  rw [hsplit]
  apply mul_le_mul_of_nonneg_right _ hs.le
  exact_mod_cast hr

theorem zpow_le_f32round {x : ℚ} (hx : 0 < x) (hn : -126 ≤ ilog2 x) :
    (2 : ℚ) ^ (ilog2 x) ≤ f32round x := by
  rw [f32round_of_pos hx, max_eq_left hn]
  set e := ilog2 x with he
  have hs : (0 : ℚ) < 2 ^ (e - 23) := by positivity
  have hsplit : (2 : ℚ) ^ e = 2 ^ 23 * 2 ^ (e - 23) := by
    rw [two_zpow_split e 23]
    norm_num
  have hq : ((2 ^ 23 : ℤ) : ℚ) ≤ x / 2 ^ (e - 23) := by
    have hc : ((2 ^ 23 : ℤ) : ℚ) = 2 ^ 23 := by norm_num
    rw [le_div_iff₀ hs, hc, ← hsplit]
    exact (ilog2_spec hx).1
  have hr := roundNE_mono hq
  rw [roundNE_intCast] at hr
  rw [hsplit]
  apply mul_le_mul_of_nonneg_right _ hs.le
  exact_mod_cast hr

theorem f32round_mono {x y : ℚ} (h : x ≤ y) : f32round x ≤ f32round y := by
  rcases le_or_lt x 0 with hx | hx
  · rw [f32round_of_nonpos hx]
    exact f32round_nonneg y
  · have hy : 0 < y := lt_of_lt_of_le hx h
    have hlog := ilog2_mono hx h
    rcases (max_le_max_right (-126) hlog).lt_or_eq with hlt | heq
    · have hyn : -126 ≤ ilog2 y := by
        by_contra hc
        rw [max_eq_right (by omega : ilog2 y ≤ -126)] at hlt
        have := le_max_right (ilog2 x) (-126)
        omega
      rw [max_eq_left hyn] at hlt
      calc f32round x ≤ 2 ^ (max (ilog2 x) (-126) + 1) := f32round_le_zpow hx
        _ ≤ 2 ^ (ilog2 y) := zpow_le_zpow_right₀ (by norm_num) (by omega)
        _ ≤ f32round y := zpow_le_f32round hy hyn
    · rw [f32round_of_pos hx, f32round_of_pos hy, heq]
      have hs : (0 : ℚ) < 2 ^ (max (ilog2 y) (-126) - 23) := by positivity
      apply mul_le_mul_of_nonneg_right _ hs.le
      have hq : x / 2 ^ (max (ilog2 y) (-126) - 23) ≤ y / 2 ^ (max (ilog2 y) (-126) - 23) :=
        div_le_div_of_nonneg_right h hs.le
      exact_mod_cast roundNE_mono hq

theorem f32round_abs_sub_le {x : ℚ} (hx : 0 < x) (hn : -126 ≤ ilog2 x) :
    |f32round x - x| ≤ x / 2 ^ 24 := by
  rw [f32round_of_pos hx, max_eq_left hn]
  set e := ilog2 x with he
  have hs : (0 : ℚ) < 2 ^ (e - 23) := by positivity
  have hsplit : (2 : ℚ) ^ e = 2 ^ 23 * 2 ^ (e - 23) := by
    rw [two_zpow_split e 23]
    norm_num
  have hlow : (2 : ℚ) ^ e ≤ x := (ilog2_spec hx).1
  have hr := roundNE_abs_sub_le (x / 2 ^ (e - 23))
  have hx' : x = x / 2 ^ (e - 23) * 2 ^ (e - 23) := by
    field_simp
  have : (roundNE (x / 2 ^ (e - 23)) : ℚ) * 2 ^ (e - 23) - x
      = ((roundNE (x / 2 ^ (e - 23)) : ℚ) - x / 2 ^ (e - 23)) * 2 ^ (e - 23) := by
    rw [sub_mul, ← hx']
  rw [this, abs_mul, abs_of_pos hs]
  calc |(roundNE (x / 2 ^ (e - 23)) : ℚ) - x / 2 ^ (e - 23)| * 2 ^ (e - 23)
      ≤ 1 / 2 * 2 ^ (e - 23) := mul_le_mul_of_nonneg_right hr hs.le
    _ = 2 ^ e / 2 ^ 24 := by
      rw [hsplit]
      ring
    _ ≤ x / 2 ^ 24 := div_le_div_of_nonneg_right hlow (by positivity)

theorem ilog2_ge_of_le {x : ℚ} {e : ℤ} (h : (2 : ℚ) ^ e ≤ x) : e ≤ ilog2 x := by
  have hx : 0 < x := lt_of_lt_of_le (by positivity) h
  have h2 : (2 : ℚ) ^ e < 2 ^ (ilog2 x + 1) := lt_of_le_of_lt h (ilog2_spec hx).2
  have := (zpow_lt_zpow_iff_right₀ (by norm_num : (1 : ℚ) < 2)).mp h2
  omega

theorem f32round_eq_self_of_int {x : ℚ} (hx : 0 < x) (hn : -126 ≤ ilog2 x) (m : ℤ)
    (hm : x / 2 ^ (ilog2 x - 23) = (m : ℚ)) : f32round x = x := by
  rw [f32round_of_pos hx, max_eq_left hn, hm, roundNE_intCast, ← hm]
  field_simp

theorem f32round_natCast_of_le (n : ℕ) (h : n ≤ 2 ^ 24) : f32round (n : ℚ) = n := by
  rcases Nat.eq_zero_or_pos n with h0 | hpos
  · subst h0
    simp [f32round]
  · have hx : (0 : ℚ) < n := by exact_mod_cast hpos
    have h1 : (2 : ℚ) ^ (0 : ℤ) ≤ n := by
      rw [zpow_zero]
      exact_mod_cast hpos
    have he0 : 0 ≤ ilog2 (n : ℚ) := ilog2_ge_of_le h1
    have hle : (n : ℚ) ≤ 2 ^ (24 : ℤ) := by
      have h2 : (n : ℚ) ≤ ((2 ^ 24 : ℕ) : ℚ) := Nat.cast_le.mpr h
      have h3 : ((2 ^ 24 : ℕ) : ℚ) = 2 ^ (24 : ℤ) := by norm_num
      rw [h3] at h2
      exact h2
    have he24 : ilog2 (n : ℚ) ≤ 24 := by
      have h3 : (2 : ℚ) ^ (ilog2 (n : ℚ)) ≤ 2 ^ (24 : ℤ) := le_trans (ilog2_spec hx).1 hle
      exact (zpow_le_zpow_iff_right₀ (by norm_num : (1 : ℚ) < 2)).mp h3
    rcases (show ilog2 (n : ℚ) ≤ 23 ∨ ilog2 (n : ℚ) = 24 by omega) with hlo | h24
    · obtain ⟨k, hk⟩ := Int.eq_ofNat_of_zero_le (show 0 ≤ 23 - ilog2 (n : ℚ) by omega)
      apply f32round_eq_self_of_int hx (by omega) ((n : ℤ) * 2 ^ k)
      have e1 : ilog2 (n : ℚ) - 23 = -(k : ℤ) := by omega
      rw [e1, zpow_neg, div_inv_eq_mul, zpow_natCast]
      push_cast
      ring
    · apply f32round_eq_self_of_int hx (by omega) (2 ^ 23)
      have hge : (2 : ℚ) ^ (24 : ℤ) ≤ n := by
        have := (ilog2_spec hx).1
        rwa [h24] at this
      have hn : (n : ℚ) = 2 ^ (24 : ℤ) := le_antisymm hle hge
      rw [h24, hn]
      norm_num

theorem f32round_one : f32round 1 = 1 := by
  have := f32round_natCast_of_le 1 (by norm_num)
  simpa using this

theorem f32round_rel {x : ℚ} (hx : (2 : ℚ) ^ (-126 : ℤ) ≤ x) :
    x * (1 - 1 / 2 ^ 24) ≤ f32round x ∧ f32round x ≤ x * (1 + 1 / 2 ^ 24) := by
  have hpos : 0 < x := lt_of_lt_of_le (by positivity) hx
  have h := f32round_abs_sub_le hpos (ilog2_ge_of_le hx)
  rw [abs_le] at h
  constructor <;> linarith [h.1, h.2]

/-! ## Properties of the scoring arithmetic -/

theorem percent_le_one {verify_valid verify_count : Nat} (hc : 0 < verify_count)
    (hv : verify_valid ≤ verify_count) :
    f32round (f32round verify_valid / f32round verify_count) ≤ 1 := by
  have hb1 : (1 : ℚ) ≤ f32round verify_count := by
    have h1 : (1 : ℚ) ≤ verify_count := by exact_mod_cast hc
    have := f32round_mono h1
    rwa [f32round_one] at this
  have hab : f32round (verify_valid : ℚ) ≤ f32round verify_count :=
    f32round_mono (by exact_mod_cast hv)
  have hq : f32round (verify_valid : ℚ) / f32round verify_count ≤ 1 := by
    rw [div_le_one (by linarith)]
    exact hab
  have := f32round_mono hq
  rwa [f32round_one] at this

theorem pointsEarned_le_of_exact {verify_valid verify_count points : Nat}
    (hc : 0 < verify_count) (hv : verify_valid ≤ verify_count)
    (hp : f32round points = points) (h32 : points < 2 ^ 32) :
    ∃ p, pointsEarned verify_valid verify_count points = some p ∧ p ≤ points := by
  have hq := percent_le_one hc hv
  have hq0 := f32round_nonneg (f32round verify_valid / f32round verify_count)
  have hprod : f32round (f32round (f32round verify_valid / f32round verify_count)
      * f32round points) ≤ points := by
    have hle : f32round (f32round verify_valid / f32round verify_count) * f32round points
        ≤ points := by
      rw [hp]
      have hw : (0 : ℚ) ≤ points := Nat.cast_nonneg _
      nlinarith
    exact le_trans (f32round_mono hle) (le_of_eq hp)
  have hlt : f32round (f32round (f32round verify_valid / f32round verify_count)
      * f32round points) < 2 ^ 32 := by
    have : (points : ℚ) < 2 ^ 32 := by exact_mod_cast h32
    linarith
  refine ⟨⌊f32round (f32round (f32round verify_valid / f32round verify_count)
      * f32round points)⌋₊, ?_, ?_⟩
  · simp only [pointsEarned, Nat.pos_iff_ne_zero.mp hc, if_false, hlt, if_true]
  · have := Nat.floor_le_floor hprod
    rwa [Nat.floor_natCast] at this

theorem chain_bound (u vv vc w a b q W P : ℚ) (hu0 : 0 ≤ u) (hu1 : u < 1)
    (hvv : 0 ≤ vv) (hvc : 0 < vc) (hw : 0 ≤ w)
    (ha1 : vv * (1 - u) ≤ a) (ha2 : a ≤ vv * (1 + u))
    (hb1 : vc * (1 - u) ≤ b) (hb2 : b ≤ vc * (1 + u))
    (hq1 : a / b * (1 - u) ≤ q) (hq2 : q ≤ a / b * (1 + u))
    (hW1 : w * (1 - u) ≤ W) (hW2 : W ≤ w * (1 + u))
    (hP1 : q * W * (1 - u) ≤ P) (hP2 : P ≤ q * W * (1 + u)) :
    vv / vc * w * ((1 - u) ^ 4 / (1 + u)) ≤ P ∧ P ≤ vv / vc * w * ((1 + u) ^ 4 / (1 - u)) := by
  have h1u : 0 < 1 - u := by linarith
  have h1u' : 0 < 1 + u := by linarith
  have hb0 : 0 < b := lt_of_lt_of_le (mul_pos hvc h1u) hb1
  have ha0 : 0 ≤ a := le_trans (mul_nonneg hvv h1u.le) ha1
  have hab0 : 0 ≤ a / b := div_nonneg ha0 hb0.le
  have hq0 : 0 ≤ q := le_trans (mul_nonneg hab0 h1u.le) hq1
  have hW0 : 0 ≤ W := le_trans (mul_nonneg hw h1u.le) hW1
  constructor
  · calc vv / vc * w * ((1 - u) ^ 4 / (1 + u))
        = (vv * (1 - u)) / (vc * (1 + u)) * (1 - u) * (w * (1 - u)) * (1 - u) := by
          field_simp
          ring
      _ ≤ a / b * (1 - u) * (w * (1 - u)) * (1 - u) := by
          gcongr
      _ ≤ q * W * (1 - u) := by
          gcongr
      _ ≤ P := hP1
  · calc P ≤ q * W * (1 + u) := hP2
      _ ≤ a / b * (1 + u) * (w * (1 + u)) * (1 + u) := by
          gcongr
      _ ≤ (vv * (1 + u)) / (vc * (1 - u)) * (1 + u) * (w * (1 + u)) * (1 + u) := by
          gcongr
      _ = vv / vc * w * ((1 + u) ^ 4 / (1 - u)) := by
          field_simp
          ring

theorem f32round_rel_of_ge {x m : ℚ} (hm : 0 ≤ m) (hm36 : 1 / 2 ^ 36 ≤ m) (hx : m ≤ x) :
    x * (1 - 1 / 2 ^ 24) ≤ f32round x ∧ f32round x ≤ x * (1 + 1 / 2 ^ 24)
      ∧ m / 2 ≤ f32round x := by
  have tiny : (2 : ℚ) ^ (-126 : ℤ) ≤ 1 / 2 ^ 36 := by norm_num
  obtain ⟨h1, h2⟩ := f32round_rel (le_trans tiny (le_trans hm36 hx))
  refine ⟨h1, h2, ?_⟩
  have hx0 : 0 ≤ x := le_trans hm hx
  have : 0 ≤ x * (1 / 2 - 1 / 2 ^ 24) := mul_nonneg hx0 (by norm_num)
  linarith

theorem product_near_exact {verify_valid verify_count points : Nat}
    (hv1 : 1 ≤ verify_valid) (hv : verify_valid ≤ verify_count) (hc32 : verify_count < 2 ^ 32)
    (hp1 : 1 ≤ points) (hp : points ≤ 2 ^ 21) :
    |f32round (f32round (f32round verify_valid / f32round verify_count) * f32round points)
      - (verify_valid : ℚ) / verify_count * points| ≤ 3 / 4 := by
  have hvv : (1 : ℚ) ≤ verify_valid := by exact_mod_cast hv1
  have hvvc : (verify_valid : ℚ) ≤ verify_count := by exact_mod_cast hv
  have hvc : (verify_count : ℚ) ≤ 2 ^ 32 := by exact_mod_cast hc32.le
  have hw1 : (1 : ℚ) ≤ points := by exact_mod_cast hp1
  have hw : (points : ℚ) ≤ 2 ^ 21 := by exact_mod_cast hp
  obtain ⟨ha1, ha2, ha_lo⟩ :=
    f32round_rel_of_ge (x := (verify_valid : ℚ)) (m := 1) (by norm_num) (by norm_num) hvv
  obtain ⟨hb1, hb2, hb_lo⟩ :=
    f32round_rel_of_ge (x := (verify_count : ℚ)) (m := 1) (by norm_num) (by norm_num)
      (le_trans hvv hvvc)
  obtain ⟨hW1, hW2, hW_lo⟩ :=
    f32round_rel_of_ge (x := (points : ℚ)) (m := 1) (by norm_num) (by norm_num) hw1
  generalize f32round (verify_valid : ℚ) = a at *
  generalize f32round (verify_count : ℚ) = b at *
  generalize f32round (points : ℚ) = W at *
  have hb_hi : b ≤ 2 ^ 33 := by
    have : (verify_count : ℚ) * (1 + 1 / 2 ^ 24) ≤ 2 ^ 32 * (1 + 1 / 2 ^ 24) :=
      mul_le_mul_of_nonneg_right hvc (by norm_num)
    have h2 : (2 : ℚ) ^ 32 * (1 + 1 / 2 ^ 24) ≤ 2 ^ 33 := by norm_num
    linarith
  have hb0 : 0 < b := by linarith
  have hq0 : (1 : ℚ) / 2 ^ 34 ≤ a / b := by
    rw [le_div_iff₀ hb0]
    have : (1 : ℚ) / 2 ^ 34 * b ≤ 1 / 2 ^ 34 * 2 ^ 33 :=
      mul_le_mul_of_nonneg_left hb_hi (by norm_num)
    have h2 : (1 : ℚ) / 2 ^ 34 * 2 ^ 33 = 1 / 2 := by norm_num
    linarith
  obtain ⟨hq1, hq2, hq_lo⟩ :=
    f32round_rel_of_ge (x := a / b) (m := 1 / 2 ^ 34) (by norm_num) (by norm_num) hq0
  generalize f32round (a / b) = q at *
  have hq_pos : 0 ≤ q := le_trans (by norm_num) hq_lo
  have hz : (1 : ℚ) / 2 ^ 36 ≤ q * W := by
    calc (1 : ℚ) / 2 ^ 36 = (1 / 2 ^ 34 / 2) * (1 / 2) := by norm_num
      _ ≤ q * W := mul_le_mul hq_lo hW_lo (by norm_num) hq_pos
  obtain ⟨hP1, hP2, -⟩ :=
    f32round_rel_of_ge (x := q * W) (m := 1 / 2 ^ 36) (by norm_num) (le_refl _) hz
  generalize f32round (q * W) = P at *
  obtain ⟨lo, hi⟩ := chain_bound (1 / 2 ^ 24) verify_valid verify_count points a b q W P
    (by norm_num) (by norm_num) (by linarith) (by linarith) (by linarith)
    ha1 ha2 hb1 hb2 hq1 hq2 hW1 hW2 hP1 hP2
  have hr0 : (0 : ℚ) ≤ (verify_valid : ℚ) / verify_count := by positivity
  have hr1 : (verify_valid : ℚ) / verify_count ≤ 1 := by
    rw [div_le_one (by linarith)]
    exact hvvc
  have hx0 : (0 : ℚ) ≤ (verify_valid : ℚ) / verify_count * points :=
    mul_nonneg hr0 (by linarith)
  have hx1 : (verify_valid : ℚ) / verify_count * points ≤ 2 ^ 21 := by
    have : (verify_valid : ℚ) / verify_count * points ≤ 1 * points :=
      mul_le_mul_of_nonneg_right hr1 (by linarith)
    linarith
  generalize (verify_valid : ℚ) / verify_count * points = x at *
  have hK : ((1 : ℚ) + 1 / 2 ^ 24) ^ 4 / (1 - 1 / 2 ^ 24) ≤ 1 + 6 / 2 ^ 24 := by norm_num
  have hk : (1 : ℚ) - 6 / 2 ^ 24 ≤ (1 - 1 / 2 ^ 24) ^ 4 / (1 + 1 / 2 ^ 24) := by norm_num
  have hlo := mul_le_mul_of_nonneg_left hk hx0
  have hhi := mul_le_mul_of_nonneg_left hK hx0
  generalize x * ((1 - 1 / 2 ^ 24) ^ 4 / (1 + 1 / 2 ^ 24)) = lo' at *
  generalize x * ((1 + 1 / 2 ^ 24) ^ 4 / (1 - 1 / 2 ^ 24)) = hi' at *
  rw [abs_le]
  constructor <;> linarith

/-! ## `endsWith` -/

theorem stdEqual_iff_starts : ∀ (a b : List Char), stdEqual a b = true ↔ a <+: b
  | [], b => by simp [stdEqual]
  | _ :: _, [] => by simp [stdEqual]
  | x :: a, y :: b => by
    by_cases h : x = y
    · subst h
      simp [stdEqual, stdEqual_iff_starts a b, List.cons_prefix_cons]
    · simp [stdEqual, h, List.cons_prefix_cons]

theorem endsWith_iff_suffix (search suffix : List Char) :
    endsWith search suffix = true ↔ suffix <:+ search := by
  unfold endsWith
  split_ifs with h
  · constructor
    · intro hf
      cases hf
    · intro hs
      have := hs.length_le
      omega
  · rw [stdEqual_iff_starts, List.reverse_prefix]

theorem assembleArgs_foldl {Sim : Type} (env : Env Sim) :
    ∀ (args : List (List Char)) (st : AsmState),
      args.foldl (assembleArg env) st =
        { valid_program := st.valid_program
            && ((args.filter positional).all fun f => (asmResult env f).1)
          obj_filenames := st.obj_filenames
            ++ (args.filter positional).map fun f => (asmResult env f).2
          trace := st.trace ++ (args.filter positional).map asmEvent }
  | [], st => by simp
  | f :: args, st => by
    rw [List.foldl_cons, assembleArgs_foldl env args]
    by_cases hp : positional f = true
    · cases hr : (asmResult env f).1 <;>
        simp [assembleArg, hp, hr, List.filter_cons, Bool.and_assoc]
    · simp [assembleArg, hp, List.filter_cons]

theorem assembleArgs_eq {Sim : Type} (env : Env Sim) (args : List (List Char)) :
    assembleArgs env args =
      { valid_program := (args.filter positional).all fun f => (asmResult env f).1
        obj_filenames := (args.filter positional).map fun f => (asmResult env f).2
        trace := (args.filter positional).map asmEvent } := by
  unfold assembleArgs
  rw [assembleArgs_foldl]
  simp

/-- C10: `endsWith(search, suffix)` is true exactly when `search = p ++ suffix` for
    some `p` (so it is false for a suffix longer than `search` and true for the empty
    suffix), and the assembly loop of the driver calls `convertBin` on a positional
    filename exactly when it ends in `.bin` and `assemble` on every other one. -/
theorem endsWith_spec_and_dispatch :
    (∀ search suffix : List Char,
        (endsWith search suffix = true ↔ ∃ p, search = p ++ suffix)
        ∧ (search.length < suffix.length → endsWith search suffix = false)
        ∧ endsWith search [] = true)
    ∧ (∀ (Sim : Type) (env : Env Sim) (argv : List (List Char)),
        (assembleArgs env (argv.drop 1)).trace = ((argv.drop 1).filter positional).map asmEvent
        ∧ (assembleArgs env (argv.drop 1)).obj_filenames
            = ((argv.drop 1).filter positional).map (fun f => (asmResult env f).2)
        ∧ ∀ f : List Char,
            ((∃ p, f = p ++ ".bin".toList) →
              asmEvent f = Event.convertBin f ∧ asmResult env f = env.convertBin f)
            ∧ ((¬ ∃ p, f = p ++ ".bin".toList) →
              asmEvent f = Event.assemble f ∧ asmResult env f = env.assemble f)) := by
  have key : ∀ search suffix : List Char,
      (endsWith search suffix = true ↔ ∃ p, search = p ++ suffix) := by
    intro search suffix
    rw [endsWith_iff_suffix]
    constructor
    · rintro ⟨p, hp⟩
      exact ⟨p, hp.symm⟩
    · rintro ⟨p, hp⟩
      exact ⟨p, hp.symm⟩
  refine ⟨fun search suffix => ⟨key search suffix, ?_, ?_⟩, ?_⟩
  · intro hlen
    simp [endsWith, hlen]
  · exact (key search []).mpr ⟨search, by simp⟩
  · intro Sim env argv
    rw [assembleArgs_eq]
    refine ⟨rfl, rfl, fun f => ⟨fun hp => ?_, fun hp => ?_⟩⟩
    · have h := (key f _).mpr hp
      unfold asmEvent asmResult
      rw [if_pos h, if_pos h]
      exact ⟨rfl, rfl⟩
    · have h : ¬ endsWith f ".bin".toList = true := fun h => hp ((key f _).mp h)
      unfold asmEvent asmResult
      rw [if_neg h, if_neg h]
      exact ⟨rfl, rfl⟩

/-! ## `BufferedPrinter` -/

theorem calls_foldl_buffer :
    ∀ (cs : List PrinterCall) (s : BufferedPrinter × List Char),
      (cs.foldl BufferedPrinter.call s).1.display_buffer
          = s.1.display_buffer ++ (cs.map PrinterCall.text).flatten
        ∧ (cs.foldl BufferedPrinter.call s).1.print_output = s.1.print_output
  | [], s => by simp
  | c :: cs, s => by
    rw [List.foldl_cons]
    obtain ⟨h1, h2⟩ := calls_foldl_buffer cs (BufferedPrinter.call s c)
    rw [h1, h2]
    cases c <;>
      simp [BufferedPrinter.call, BufferedPrinter.print, BufferedPrinter.newline,
        PrinterCall.text]

/-- C9: after any sequence of `print(text)` and `newline()` calls the buffer is the
    previous buffer followed by the printed texts and one line feed per `newline`,
    in call order; the buffer does not depend on the echo flag (nor on what is on
    the console), and the flag itself is left as constructed. -/
theorem BufferedPrinter_calls_buffer (p : BufferedPrinter) (cout : List Char)
    (cs : List PrinterCall) :
    (p.calls cout cs).1.display_buffer = p.display_buffer ++ (cs.map PrinterCall.text).flatten
    ∧ (p.calls cout cs).1.print_output = p.print_output
    ∧ (∀ (echo : Bool) (cout1 : List Char),
        (BufferedPrinter.calls { p with print_output := echo } cout1 cs).1.display_buffer
          = (p.calls cout cs).1.display_buffer)
    ∧ (∀ text, (p.print cout text).1.display_buffer = p.display_buffer ++ text)
    ∧ (p.newline cout).1.display_buffer = p.display_buffer ++ ['\n'] := by
  unfold BufferedPrinter.calls
  refine ⟨(calls_foldl_buffer cs (p, cout)).1, (calls_foldl_buffer cs (p, cout)).2, ?_,
    fun _ => rfl, rfl⟩
  intro echo cout1
  rw [(calls_foldl_buffer cs (p, cout)).1, (calls_foldl_buffer cs _).1]

/-! ## `StringInputter` -/

theorem StringInputter_after_le (source : List Char) (c0 : Char) :
    ∀ k, k ≤ source.length →
      StringInputter.after k (StringInputter.new source) c0
        = (if k = 0 then c0 else source.getD (k - 1) c0, { source := source, pos := k }) := by
  have gen : ∀ (k j : Nat) (c : Char), j + k ≤ source.length →
      StringInputter.after k { source := source, pos := j } c
        = (if k = 0 then c else source.getD (j + k - 1) c, { source := source, pos := j + k }) := by
    intro k
    induction k with
    | zero => intro j c _; simp [StringInputter.after]
    | succ k ih =>
      intro j c hj
      have hne : j ≠ source.length := by omega
      have hlt : j < source.length := by omega
      simp only [StringInputter.after, StringInputter.getChar, hne, if_false]
      rw [ih (j + 1) _ (by omega)]
      have e1 : j + 1 + k = j + (k + 1) := by omega
      rw [e1]
      by_cases hk : k = 0
      · subst hk
        simp
      · have hlt2 : j + k < source.length := by omega
        have hget : source[j + k]? = some source[j + k] := List.getElem?_eq_getElem hlt2
        simp [hk, hget]
  intro k hk
  have := gen k 0 c0 (by omega)
  simpa [StringInputter.new] using this

theorem StringInputter_after_stuck (source : List Char) :
    ∀ (k : Nat) (c : Char),
      StringInputter.after k { source := source, pos := source.length } c
        = (c, { source := source, pos := source.length }) := by
  intro k
  induction k with
  | zero => intro c; rfl
  | succ k ih =>
    intro c
    simp only [StringInputter.after, StringInputter.getChar, if_true]
    exact ih c

theorem StringInputter_after_add (m : Nat) :
    ∀ (k : Nat) (s : StringInputter) (c : Char),
      StringInputter.after (k + m) s c
        = StringInputter.after m (StringInputter.after k s c).2 (StringInputter.after k s c).1 := by
  intro k
  induction k with
  | zero => intro s c; simp [StringInputter.after]
  | succ k ih =>
    intro s c
    have e : k + 1 + m = (k + m) + 1 := by omega
    rw [e]
    simp only [StringInputter.after]
    exact ih _ _

/-- C8: a `StringInputter` built from `source` answers call number `i + 1`, for
    `i < source.length`, with `true` and the character `source[i]`, moving the
    cursor to `i + 1`; after `k ≥ source.length` calls the cursor stands at
    `source.length` and every further call answers `false` and leaves the output
    character and the inputter as they are. -/
theorem StringInputter_getChar_sequence (source : List Char) (c0 : Char) :
    (∀ (i : Nat) (h : i < source.length),
        ((StringInputter.after i (StringInputter.new source) c0).2.getChar
            (StringInputter.after i (StringInputter.new source) c0).1)
          = (true, source.get ⟨i, h⟩, { source := source, pos := i + 1 }))
    ∧ (∀ k, source.length ≤ k →
        (StringInputter.after k (StringInputter.new source) c0).2
            = { source := source, pos := source.length }
        ∧ ((StringInputter.after k (StringInputter.new source) c0).2.getChar
            (StringInputter.after k (StringInputter.new source) c0).1)
          = (false, (StringInputter.after k (StringInputter.new source) c0).1,
              (StringInputter.after k (StringInputter.new source) c0).2)) := by
  constructor
  · intro i h
    rw [StringInputter_after_le source c0 i h.le]
    have hne : i ≠ source.length := by omega
    have hget : source[i]? = some source[i] := List.getElem?_eq_getElem h
    simp [StringInputter.getChar, hne, hget]
  · intro k hk
    obtain ⟨m, rfl⟩ := Nat.exists_eq_add_of_le hk
    rw [StringInputter_after_add, StringInputter_after_le source c0 _ (le_refl _)]
    simp only [StringInputter_after_stuck]
    simp [StringInputter.getChar]

/-! ## `outputCompare` -/

theorem outputCompareLoop_spec (display_buffer check : List Char)
    (hlen : display_buffer.length = check.length) (h32 : check.length < 2 ^ 32) :
    ∀ (fuel i : Nat), i ≤ check.length → check.length - i < fuel →
      outputCompareLoop display_buffer check fuel i
        = some (decide (display_buffer.drop i = check.drop i)) := by
  intro fuel
  induction fuel with
  | zero => intro i _ h; omega
  | succ fuel ih =>
    intro i hi hf
    unfold outputCompareLoop
    by_cases hlt : i < check.length
    · have hlt' : i < display_buffer.length := by omega
      have hb : display_buffer[i]? = some display_buffer[i] := List.getElem?_eq_getElem hlt'
      have hc : check[i]? = some check[i] := List.getElem?_eq_getElem hlt
      have db : display_buffer.drop i = display_buffer[i] :: display_buffer.drop (i + 1) :=
        List.drop_eq_getElem_cons hlt'
      have dc : check.drop i = check[i] :: check.drop (i + 1) := List.drop_eq_getElem_cons hlt
      rw [if_pos hlt, hb, hc, db, dc]
      by_cases heq : display_buffer[i] = check[i]
      · have hmod : (i + 1) % 2 ^ 32 = i + 1 := Nat.mod_eq_of_lt (by omega)
        have hn : ¬ (some display_buffer[i] ≠ some check[i]) := by
          rw [heq]
          exact fun h => h rfl
        rw [if_neg hn, hmod, ih (i + 1) (by omega) (by omega), heq]
        apply congrArg
        apply decide_eq_decide.mpr
        constructor
        · intro h
          rw [h]
        · intro h
          exact (List.cons.inj h).2
      · have hn : some display_buffer[i] ≠ some check[i] := fun h => heq (Option.some.inj h)
        have hd : ¬ (display_buffer[i] :: display_buffer.drop (i + 1)
            = check[i] :: check.drop (i + 1)) := fun h => heq (List.cons.inj h).1
        rw [if_pos hn, decide_eq_false hd]
    · have hi' : i = check.length := by omega
      rw [if_neg hlt]
      subst hi'
      simp [← hlen]

theorem outputCompare_of_short (fuel : Nat) (printer : BufferedPrinter) (check : List Char)
    (h32 : (check ++ haltBanner).length < 2 ^ 32) (hf : (check ++ haltBanner).length < fuel) :
    outputCompare fuel printer check
      = some (decide (printer.display_buffer = check ++ haltBanner)) := by
  unfold outputCompare
  simp only
  split_ifs with hlen
  · have hne : printer.display_buffer ≠ check ++ haltBanner := fun h => hlen (by rw [h])
    simp [hne]
  · have hlen' : printer.display_buffer.length = (check ++ haltBanner).length := by
      by_contra hc
      exact hlen hc
    have := outputCompareLoop_spec printer.display_buffer (check ++ haltBanner) hlen' h32 fuel 0
      (Nat.zero_le _) (by omega)
    simpa using this

theorem outputCompareLoop_diverges (check : List Char) (h32 : 2 ^ 32 ≤ check.length) :
    ∀ (fuel i : Nat), i < 2 ^ 32 → outputCompareLoop check check fuel i = none := by
  intro fuel
  induction fuel with
  | zero => intro i _; rfl
  | succ fuel ih =>
    intro i hi
    unfold outputCompareLoop
    have hlt : i < check.length := by omega
    rw [if_pos hlt]
    simp only [ne_eq, not_true_eq_false, if_false]
    exact ih _ (Nat.mod_lt _ (by norm_num))

/-- C3 (at the failing input): when the expected text has `2 ^ 32` characters and the
    buffer equals the expected text followed by the halt banner, `outputCompare`
    returns nothing however many iterations it is given: the 32-bit index wraps to
    zero before it reaches the size, so the loop never ends and `true` is never
    returned. -/
theorem outputCompare_diverges_on_long_equal_input (fuel : Nat) (print_output : Bool) :
    outputCompare fuel
      { display_buffer := List.replicate (2 ^ 32) 'a' ++ haltBanner, print_output := print_output }
      (List.replicate (2 ^ 32) 'a') = none := by
  unfold outputCompare
  simp only [ne_eq, not_true_eq_false, if_false]
  apply outputCompareLoop_diverges _ _ fuel 0 (by norm_num)
  rw [List.length_append, List.length_replicate]
  omega

/-! ## The grading driver -/

theorem loadObjects_some {Sim : Type} (env : Env Sim) :
    ∀ (objs : List (List Char)) (sim sim1 : Sim), (loadObjects env sim objs).1 = some sim1 →
      (loadObjects env sim objs).2 = objs.map (fun f => Event.loadObjectFile f true)
  | [], _, _, _ => rfl
  | f :: objs, sim, sim1, h => by
    unfold loadObjects at h ⊢
    by_cases hok : (env.loadObjectFile sim f).1 = true
    · rw [if_pos hok] at h ⊢
      simp only [List.map_cons]
      rw [loadObjects_some env objs _ sim1 h]
    · rw [if_neg hok] at h
      cases h

theorem loadObjects_none {Sim : Type} (env : Env Sim) :
    ∀ (objs : List (List Char)) (sim : Sim), (loadObjects env sim objs).1 = none →
      ∃ (pre : List (List Char)) (f : List Char),
        (loadObjects env sim objs).2
          = pre.map (fun g => Event.loadObjectFile g true) ++ [Event.loadObjectFile f false]
  | [], _, h => by cases h
  | f :: objs, sim, h => by
    unfold loadObjects at h ⊢
    by_cases hok : (env.loadObjectFile sim f).1 = true
    · rw [if_pos hok] at h ⊢
      obtain ⟨pre, g, hg⟩ := loadObjects_none env objs _ h
      exact ⟨f :: pre, g, by simp [hg]⟩
    · rw [if_neg hok]
      exact ⟨[], f, by simp⟩

theorem runTest_cases {Sim : Type} (env : Env Sim) (print_output : Bool)
    (objs : List (List Char)) (st : Totals) (test : TestCase Sim) :
    (∃ (pre : List (List Char)) (f : List Char),
      (loadObjects env (freshSim env print_output test) objs).1 = none
      ∧ runTest env print_output objs st test
        = Except.error (2, st.trace ++ bringupEvents test
            ++ (pre.map (fun g => Event.loadObjectFile g true) ++ [Event.loadObjectFile f false])))
    ∨ (∃ (sim : Sim) (what : List Char),
      (loadObjects env (freshSim env print_output test) objs).1 = some sim
      ∧ test.test_func sim = BodyResult.threw what
      ∧ runTest env print_output objs st test
        = Except.ok { total_points_earned := st.total_points_earned
                      total_possible_points := (st.total_possible_points + test.points) % 2 ^ 32
                      trace := st.trace ++ bringupEvents test
                        ++ objs.map (fun g => Event.loadObjectFile g true)
                        ++ [Event.test_func test.name true] })
    ∨ (∃ (sim sim1 : Sim) (c : Counters),
      (loadObjects env (freshSim env print_output test) objs).1 = some sim
      ∧ test.test_func sim = BodyResult.returned sim1 c
      ∧ runTest env print_output objs st test
        = Except.ok
            { total_points_earned := addPoints st.total_points_earned
                (pointsEarned (env.testTeardown sim1 c).verify_valid
                  (env.testTeardown sim1 c).verify_count test.points)
              total_possible_points := (st.total_possible_points + test.points) % 2 ^ 32
              trace := st.trace ++ bringupEvents test
                ++ objs.map (fun g => Event.loadObjectFile g true)
                ++ [Event.test_func test.name false, Event.testTeardown test.name,
                    Event.pointsEarned test.name
                      (pointsEarned (env.testTeardown sim1 c).verify_valid
                        (env.testTeardown sim1 c).verify_count test.points)] })
    ∨ (∃ (sim : Sim) (what : List Char),
      (loadObjects env (freshSim env print_output test) objs).1 = some sim
      ∧ test.test_func sim = BodyResult.threwOther what
      ∧ runTest env print_output objs st test
        = Except.error (abortStatus, st.trace ++ bringupEvents test
            ++ objs.map (fun g => Event.loadObjectFile g true)
            ++ [Event.test_func test.name true])) := by
  cases hl : (loadObjects env (freshSim env print_output test) objs).1 with
  | none =>
    left
    obtain ⟨pre, f, hpf⟩ := loadObjects_none env objs _ hl
    refine ⟨pre, f, rfl, ?_⟩
    simp only [runTest, hl, hpf]
  | some sim =>
    right
    have hev := loadObjects_some env objs _ sim hl
    cases hb : test.test_func sim with
    | threw what =>
      left
      refine ⟨sim, what, rfl, hb, ?_⟩
      simp only [runTest, hl, hb, hev]
    | returned sim1 c =>
      right
      left
      refine ⟨sim, sim1, c, rfl, hb, ?_⟩
      simp only [runTest, hl, hb, hev]
    | threwOther what =>
      right
      right
      refine ⟨sim, what, rfl, hb, ?_⟩
      simp only [runTest, hl, hb, hev]

/-- C5: when the assembler reports failure for some positional file, `main` runs no
    test (its trace holds only the assembler calls, one per positional file in
    order, and `setup`: no bringup, no load, no test body), it still collects the
    object name of every positional file, and it prints the summary with both
    totals `0` and percentage `0`, returning `0`. -/
theorem main_of_assembly_failure {Sim : Type} (env : Env Sim) (argv : List (List Char))
    (hfail : ∃ f ∈ argv.drop 1, positional f = true ∧ (asmResult env f).1 = false) :
    main env argv =
      { status := 0
        obj_filenames := ((argv.drop 1).filter positional).map (fun f => (asmResult env f).2)
        trace := ((argv.drop 1).filter positional).map asmEvent ++ [Event.setup]
        summary := some { total_points_earned := some 0, total_possible_points := 0
                          percent := some 0 } }
    ∧ (∀ ev ∈ (main env argv).trace,
        (∃ f, ev = Event.convertBin f ∨ ev = Event.assemble f) ∨ ev = Event.setup) := by
  obtain ⟨f, hf, hpos, hres⟩ := hfail
  have hv : (assembleArgs env (argv.drop 1)).valid_program = false := by
    rw [assembleArgs_eq]
    simp only
    rw [Bool.eq_false_iff]
    intro hall
    rw [List.all_eq_true] at hall
    have := hall f (List.mem_filter.mpr ⟨hf, hpos⟩)
    rw [hres] at this
    cases this
  have hmain : main env argv =
      { status := 0
        obj_filenames := ((argv.drop 1).filter positional).map (fun f => (asmResult env f).2)
        trace := ((argv.drop 1).filter positional).map asmEvent ++ [Event.setup]
        summary := some { total_points_earned := some 0, total_possible_points := 0
                          percent := some 0 } } := by
    unfold main
    simp only [hv, Bool.false_eq_true, if_false]
    rw [assembleArgs_eq]
    simp [summarize, f32round_of_nonpos]
  refine ⟨hmain, ?_⟩
  rw [hmain]
  intro ev hev
  simp only [List.mem_append, List.mem_map, List.mem_singleton] at hev
  rcases hev with ⟨g, -, hg⟩ | hset
  · left
    refine ⟨g, ?_⟩
    unfold asmEvent at hg
    split_ifs at hg
    · exact Or.inl hg.symm
    · exact Or.inr hg.symm
  · exact Or.inr hset

/-- C6: when the object files load and the test body raises a machine fault, the
    loop adds the test's weight to `total_possible_points`, leaves
    `total_points_earned` as it was, makes no `testTeardown` call (the iteration's
    calls are the bringup, the optional randomize, the loads and the body) and goes
    on with the remaining tests in order; in the scenario with weights 10 and 20,
    where the first test passes 5 of 10 verifications and the second faults, the
    totals are 5 earned of 30 possible. -/
theorem runTests_fault_step {Sim : Type} (env : Env Sim) (print_output : Bool)
    (objs : List (List Char)) (st : Totals) (test : TestCase Sim) (rest : List (TestCase Sim))
    (sim : Sim) (what : List Char)
    (hload : (loadObjects env (freshSim env print_output test) objs).1 = some sim)
    (hthrow : test.test_func sim = BodyResult.threw what) :
    runTests env print_output objs st (test :: rest)
      = runTests env print_output objs
          { total_points_earned := st.total_points_earned
            total_possible_points := (st.total_possible_points + test.points) % 2 ^ 32
            trace := st.trace ++ bringupEvents test
              ++ objs.map (fun g => Event.loadObjectFile g true)
              ++ [Event.test_func test.name true] } rest
    ∧ (∀ name, Event.testTeardown name ∉ bringupEvents test
          ++ objs.map (fun g => Event.loadObjectFile g true) ++ [Event.test_func test.name true])
    ∧ (main scenarioEnv oneFileArgv).summary.map
          (fun s => (s.total_points_earned, s.total_possible_points)) = some (some 5, 30) := by
  refine ⟨?_, ?_, by decide!⟩
  · rcases runTest_cases env print_output objs st test with
      ⟨pre, f, hl, -⟩ | ⟨sim2, what2, -, -, hr⟩ | ⟨sim2, sim1, c, hl, hb, -⟩
        | ⟨sim2, what2, hl, hb, -⟩
    · rw [hload] at hl
      cases hl
    · conv_lhs => unfold runTests
      rw [hr]
    · rw [hload] at hl
      cases hl
      rw [hthrow] at hb
      cases hb
    · rw [hload] at hl
      cases hl
      rw [hthrow] at hb
      cases hb
  · intro name
    by_cases hrand : test.randomize = true <;> simp [bringupEvents, hrand]

theorem runTests_possible {Sim : Type} (env : Env Sim) (print_output : Bool)
    (objs : List (List Char)) :
    ∀ (tests : List (TestCase Sim)) (st st1 : Totals),
      runTests env print_output objs st tests = Except.ok st1 →
      st.total_possible_points < 2 ^ 32 →
      st1.total_possible_points
        = (st.total_possible_points + (tests.map (fun t => t.points)).sum) % 2 ^ 32
  | [], st, st1, h, hlt => by
    simp only [runTests, Except.ok.injEq] at h
    rw [← h, List.map_nil, List.sum_nil, Nat.add_zero, Nat.mod_eq_of_lt hlt]
  | test :: rest, st, st1, h, hlt => by
    unfold runTests at h
    have hmod : (st.total_possible_points + test.points) % 2 ^ 32 < 2 ^ 32 :=
      Nat.mod_lt _ (by norm_num)
    have hsum : ((st.total_possible_points + test.points) % 2 ^ 32
        + (rest.map (fun t => t.points)).sum) % 2 ^ 32
        = (st.total_possible_points + ((test :: rest).map (fun t => t.points)).sum) % 2 ^ 32 := by
      rw [List.map_cons, List.sum_cons, Nat.mod_add_mod, Nat.add_assoc]
    rcases runTest_cases env print_output objs st test with
      ⟨pre, f, -, hr⟩ | ⟨sim, what, -, -, hr⟩ | ⟨sim, sim1, c, -, -, hr⟩ | ⟨sim, what, -, -, hr⟩
    · rw [hr] at h
      cases h
    · rw [hr] at h
      rw [runTests_possible env print_output objs rest _ st1 h hmod, hsum]
    · rw [hr] at h
      rw [runTests_possible env print_output objs rest _ st1 h hmod, hsum]
    · rw [hr] at h
      cases h

theorem runTests_earned_le {Sim : Type} (env : Env Sim) (print_output : Bool)
    (objs : List (List Char)) :
    ∀ (tests : List (TestCase Sim)) (st st1 : Totals) (e : Nat),
      runTests env print_output objs st tests = Except.ok st1 →
      st.total_points_earned = some e → e ≤ st.total_possible_points →
      st.total_possible_points + (tests.map (fun t => t.points)).sum < 2 ^ 32 →
      (∀ t ∈ tests, f32round (t.points : ℚ) = t.points) →
      (∀ t ∈ tests, ∀ (sim sim1 : Sim) (c : Counters),
        t.test_func sim = BodyResult.returned sim1 c →
        0 < (env.testTeardown sim1 c).verify_count
        ∧ (env.testTeardown sim1 c).verify_valid ≤ (env.testTeardown sim1 c).verify_count) →
      ∃ e1, st1.total_points_earned = some e1 ∧ e1 ≤ st1.total_possible_points
  | [], st, st1, e, h, he, hle, _, _, _ => by
    simp only [runTests, Except.ok.injEq] at h
    rw [← h]
    exact ⟨e, he, hle⟩
  | test :: rest, st, st1, e, h, he, hle, hsum, hexact, hcount => by
    unfold runTests at h
    rw [List.map_cons, List.sum_cons] at hsum
    have hmod : (st.total_possible_points + test.points) % 2 ^ 32
        = st.total_possible_points + test.points := Nat.mod_eq_of_lt (by omega)
    have hexact1 : ∀ t ∈ rest, f32round (t.points : ℚ) = t.points :=
      fun t ht => hexact t (List.mem_cons_of_mem _ ht)
    have hcount1 : ∀ t ∈ rest, ∀ (sim sim1 : Sim) (c : Counters),
        t.test_func sim = BodyResult.returned sim1 c →
        0 < (env.testTeardown sim1 c).verify_count
        ∧ (env.testTeardown sim1 c).verify_valid ≤ (env.testTeardown sim1 c).verify_count :=
      fun t ht => hcount t (List.mem_cons_of_mem _ ht)
    rcases runTest_cases env print_output objs st test with
      ⟨pre, f, -, hr⟩ | ⟨sim, what, -, -, hr⟩ | ⟨sim, sim1, c, -, hb, hr⟩ | ⟨sim, what, -, -, hr⟩
    rotate_left 3
    · rw [hr] at h
      cases h
    · rw [hr] at h
      cases h
    · rw [hr] at h
      refine runTests_earned_le env print_output objs rest _ st1 e h he ?_ ?_ hexact1 hcount1
      · simp only [hmod]
        omega
      · simp only [hmod]
        omega
    · rw [hr] at h
      obtain ⟨hc0, hcv⟩ := hcount test (List.mem_cons_self _ _) sim sim1 c hb
      obtain ⟨q, hq, hqle⟩ := pointsEarned_le_of_exact hc0 hcv
        (hexact test (List.mem_cons_self _ _)) (by omega)
      have hadd : addPoints st.total_points_earned
          (pointsEarned (env.testTeardown sim1 c).verify_valid
            (env.testTeardown sim1 c).verify_count test.points) = some (e + q) := by
        rw [he, hq]
        simp only [addPoints]
        rw [Nat.mod_eq_of_lt (by omega)]
      refine runTests_earned_le env print_output objs rest _ st1 (e + q) h hadd ?_ ?_
        hexact1 hcount1
      · simp only [hmod]
        omega
      · simp only [hmod]
        omega

/-! ## The claims about scoring and totals -/

/-- C1 (counterexample): a test of weight 22 that passes 13 of 22 verifications is
    awarded 12 points by the driver, while `floor((13 / 22) * 22) = 13`: the
    single-precision quotient is below `13 / 22` and the product rounds to a value
    below 13. -/
theorem pointsEarned_differs_from_exact :
    pointsEarned 13 22 22 = some 12
    ∧ exactPoints 13 22 22 = 13
    ∧ (main roundingEnv oneFileArgv).summary.map (fun s => s.total_points_earned)
        = some (some 12) := by
  decide!

/-- C1 (amended): for counters with `0 < verify_count`, `verify_valid ≤ verify_count`
    and a weight up to `2 ^ 21`, the points awarded are the floor of the product
    computed in single precision (both counters and the weight converted to
    binary32, quotient and product each rounded to nearest, ties to even), and
    this differs from `floor((verify_valid / verify_count) * weight)` by at most 1. -/
theorem pointsEarned_single_precision (verify_valid verify_count points : Nat)
    (hc : 0 < verify_count) (hv : verify_valid ≤ verify_count) (hc32 : verify_count < 2 ^ 32)
    (hp : points ≤ 2 ^ 21) :
    pointsEarned verify_valid verify_count points
        = some ⌊f32round (f32round (f32round verify_valid / f32round verify_count)
            * f32round points)⌋₊
      ∧ ⌊f32round (f32round (f32round verify_valid / f32round verify_count)
            * f32round points)⌋₊ ≤ exactPoints verify_valid verify_count points + 1
      ∧ exactPoints verify_valid verify_count points
          ≤ ⌊f32round (f32round (f32round verify_valid / f32round verify_count)
            * f32round points)⌋₊ + 1 := by
  have hP0 := f32round_nonneg
    (f32round (f32round verify_valid / f32round verify_count) * f32round points)
  have hcpos : (0 : ℚ) < verify_count := by exact_mod_cast hc
  have hw0 : (0 : ℚ) ≤ points := Nat.cast_nonneg _
  have hx0 : (0 : ℚ) ≤ (verify_valid : ℚ) / verify_count * points := by positivity
  have hx1 : (verify_valid : ℚ) / verify_count * points ≤ 2 ^ 21 := by
    have hvvc : (verify_valid : ℚ) ≤ verify_count := by exact_mod_cast hv
    have hw : (points : ℚ) ≤ 2 ^ 21 := by exact_mod_cast hp
    have : (verify_valid : ℚ) / verify_count ≤ 1 := by
      rw [div_le_one hcpos]
      exact hvvc
    have : (verify_valid : ℚ) / verify_count * points ≤ 1 * points :=
      mul_le_mul_of_nonneg_right this hw0
    linarith
  have h : |f32round (f32round (f32round verify_valid / f32round verify_count) * f32round points)
      - (verify_valid : ℚ) / verify_count * points| ≤ 3 / 4 := by
    rcases Nat.eq_zero_or_pos verify_valid with h0 | hv1
    · subst h0
      simp [f32round_of_nonpos (le_refl (0 : ℚ))]
      norm_num
    rcases Nat.eq_zero_or_pos points with h0 | hp1
    · subst h0
      simp [f32round_of_nonpos (le_refl (0 : ℚ))]
      norm_num
    exact product_near_exact hv1 hv hc32 hp1 hp
  rw [abs_le] at h
  obtain ⟨h1, h2⟩ := h
  have hlt : f32round (f32round (f32round verify_valid / f32round verify_count)
      * f32round points) < 2 ^ 32 := by
    have : (2 : ℚ) ^ 21 + 3 / 4 < 2 ^ 32 := by norm_num
    linarith
  refine ⟨?_, ?_, ?_⟩
  · simp only [pointsEarned, Nat.pos_iff_ne_zero.mp hc, if_false, hlt, if_true]
  · unfold exactPoints
    rw [← Nat.floor_add_one hx0]
    exact Nat.floor_le_floor (by linarith)
  · unfold exactPoints
    rw [← Nat.floor_add_one hP0]
    exact Nat.floor_le_floor (by linarith)

/-- C1 (witness): the amended statement at 13 of 22 verifications and weight 22. -/
theorem pointsEarned_single_precision_witness :
    (0 < 22 ∧ 13 ≤ 22 ∧ 22 < 2 ^ 32 ∧ 22 ≤ 2 ^ 21)
    ∧ pointsEarned 13 22 22
        = some ⌊f32round (f32round (f32round (13 : ℕ) / f32round (22 : ℕ))
            * f32round (22 : ℕ))⌋₊
    ∧ ⌊f32round (f32round (f32round (13 : ℕ) / f32round (22 : ℕ))
            * f32round (22 : ℕ))⌋₊ ≤ exactPoints 13 22 22 + 1
    ∧ exactPoints 13 22 22
        ≤ ⌊f32round (f32round (f32round (13 : ℕ) / f32round (22 : ℕ))
            * f32round (22 : ℕ))⌋₊ + 1 :=
  ⟨by decide, pointsEarned_single_precision 13 22 22 (by decide) (by decide) (by decide)
    (by decide)⟩

/-- C2 (counterexample): with the only verification passed and weight
    `16777219 = 2 ^ 24 + 3`, which binary32 rounds to `16777220`, the driver awards
    `16777220` points, more than the weight. -/
theorem pointsEarned_exceeds_weight :
    pointsEarned 1 1 16777219 = some 16777220 ∧ ¬ (16777220 ≤ 16777219)
    ∧ 16777219 < 2 ^ 32 ∧ f32round (16777219 : ℕ) = 16777220 := by
  decide!

/-- C2 (amended): for counters with `0 < verify_count` and
    `verify_valid ≤ verify_count` and every 32-bit weight that binary32 represents
    exactly (every weight up to `2 ^ 24` is one), the points awarded are defined
    and satisfy `0 ≤ earned ≤ weight`. -/
theorem pointsEarned_le_weight (verify_valid verify_count points : Nat)
    (hc : 0 < verify_count) (hv : verify_valid ≤ verify_count) (h32 : points < 2 ^ 32)
    (hp : f32round (points : ℚ) = points ∨ points ≤ 2 ^ 24) :
    ∃ p, pointsEarned verify_valid verify_count points = some p ∧ 0 ≤ p ∧ p ≤ points := by
  have hexact : f32round (points : ℚ) = points := by
    rcases hp with h | h
    · exact h
    · exact f32round_natCast_of_le points h
  obtain ⟨p, h1, h2⟩ := pointsEarned_le_of_exact hc hv hexact h32
  exact ⟨p, h1, Nat.zero_le p, h2⟩

/-- C2 (witness): the amended statement at 13 of 22 verifications and weight 100. -/
theorem pointsEarned_le_weight_witness :
    (0 < 22 ∧ 13 ≤ 22 ∧ 100 < 2 ^ 32 ∧ 100 ≤ 2 ^ 24)
    ∧ ∃ p, pointsEarned 13 22 100 = some p ∧ 0 ≤ p ∧ p ≤ 100 :=
  ⟨by decide, pointsEarned_le_weight 13 22 100 (by decide) (by decide) (by decide)
    (Or.inr (by decide))⟩

/-- C4 (counterexample): two tests of weight `2 ^ 31`, the first passing its only
    verification and the second raising a fault.  The run reaches the summary with
    `total_points_earned = 2 ^ 31` and `total_possible_points = 0`, while the
    weights of the tests started sum to `2 ^ 32`. -/
theorem totals_wrap_around :
    (main wrapEnv oneFileArgv).summary
        = some { total_points_earned := some 2147483648, total_possible_points := 0
                 percent := some 0 }
    ∧ ((startedTests wrapEnv oneFileArgv).map (fun t => t.points)).sum = 4294967296
    ∧ ¬ (2147483648 ≤ 0) := by
  decide!

/-- C4 (amended): in every run that reaches the summary and whose started tests
    have weights summing to less than `2 ^ 32`, `total_possible_points` equals the
    sum of the weights of the tests the loop started; and when moreover each of
    these weights is exactly representable in binary32 and every test that
    completes has `0 < verify_count` and `verify_valid ≤ verify_count` at scoring,
    `total_points_earned ≤ total_possible_points`. -/
theorem main_totals {Sim : Type} (env : Env Sim) (argv : List (List Char)) (s : Summary)
    (hs : (main env argv).summary = some s)
    (hsum : ((startedTests env argv).map (fun t => t.points)).sum < 2 ^ 32) :
    s.total_possible_points = ((startedTests env argv).map (fun t => t.points)).sum
    ∧ ((∀ t ∈ startedTests env argv, f32round (t.points : ℚ) = t.points) →
        (∀ t ∈ startedTests env argv, ∀ (sim sim1 : Sim) (c : Counters),
          t.test_func sim = BodyResult.returned sim1 c →
          0 < (env.testTeardown sim1 c).verify_count
          ∧ (env.testTeardown sim1 c).verify_valid ≤ (env.testTeardown sim1 c).verify_count) →
        ∃ e, s.total_points_earned = some e ∧ e ≤ s.total_possible_points) := by
  unfold main at hs
  simp only at hs
  unfold startedTests at hsum ⊢
  by_cases hv : (assembleArgs env (argv.drop 1)).valid_program = true
  · rw [if_pos hv] at hs hsum
    rw [if_pos hv]
    cases hr : runTests env
        ((env.parseCLIArgs argv).any fun arg => arg.1 == "print-output".toList)
        (assembleArgs env (argv.drop 1)).obj_filenames
        { total_points_earned := some 0, total_possible_points := 0
          trace := (assembleArgs env (argv.drop 1)).trace ++ [Event.setup] } env.setup with
    | error trace =>
      rw [hr] at hs
      cases hs
    | ok st =>
      rw [hr] at hs
      simp only [Option.some.injEq] at hs
      have hposs := runTests_possible env _ _ _ _ _ hr (by norm_num)
      simp only [Nat.zero_add] at hposs
      have hsp : s.total_possible_points = st.total_possible_points := by
        rw [← hs]
        rfl
      have hse : s.total_points_earned = st.total_points_earned := by
        rw [← hs]
        rfl
      refine ⟨by rw [hsp, hposs, Nat.mod_eq_of_lt hsum], ?_⟩
      intro hexact hcount
      obtain ⟨e, he, hle⟩ := runTests_earned_le env _ _ _ _ _ 0 hr rfl (Nat.zero_le _)
        (by simpa using hsum) hexact hcount
      exact ⟨e, by rw [hse, he], by rw [hsp]; exact hle⟩
  · rw [if_neg hv] at hs
    rw [if_neg hv]
    simp only [Option.some.injEq] at hs
    have hsp : s.total_possible_points = 0 := by
      rw [← hs]
      rfl
    have hse : s.total_points_earned = some 0 := by
      rw [← hs]
      rfl
    refine ⟨by rw [hsp]; rfl, ?_⟩
    intro _ _
    exact ⟨0, hse, Nat.zero_le _⟩

/-- C4 (witness): the amended statement in the scenario with weights 10 and 20,
    where the first test passes 5 of 10 verifications and the second faults. -/
theorem main_totals_witness :
    ((main scenarioEnv oneFileArgv).summary
        = some { total_points_earned := some 5, total_possible_points := 30
                 percent := some (4369067 / 262144) }
      ∧ ((startedTests scenarioEnv oneFileArgv).map (fun t => t.points)).sum < 2 ^ 32
      ∧ (∀ t ∈ startedTests scenarioEnv oneFileArgv, f32round (t.points : ℚ) = t.points))
    ∧ 30 = ((startedTests scenarioEnv oneFileArgv).map (fun t => t.points)).sum
    ∧ ∃ e, some 5 = some e ∧ e ≤ 30 := by
  have hs : (main scenarioEnv oneFileArgv).summary
      = some { total_points_earned := some 5, total_possible_points := 30
               percent := some (4369067 / 262144) } := by decide!
  have hsum : ((startedTests scenarioEnv oneFileArgv).map (fun t => t.points)).sum < 2 ^ 32 := by
    decide!
  have hexact : ∀ t ∈ startedTests scenarioEnv oneFileArgv,
      f32round (t.points : ℚ) = t.points := by decide!
  have hstarted : startedTests scenarioEnv oneFileArgv
      = [scoringTest "first".toList 10 10 5, faultingTest "second".toList 20] := by rfl
  have hcount : ∀ t ∈ startedTests scenarioEnv oneFileArgv, ∀ (sim sim1 : Unit) (c : Counters),
      t.test_func sim = BodyResult.returned sim1 c →
      0 < (scenarioEnv.testTeardown sim1 c).verify_count
      ∧ (scenarioEnv.testTeardown sim1 c).verify_valid
          ≤ (scenarioEnv.testTeardown sim1 c).verify_count := by
    intro t ht sim sim1 c hb
    rw [hstarted] at ht
    simp only [List.mem_cons, List.mem_singleton, List.not_mem_nil, or_false] at ht
    rcases ht with rfl | rfl
    · simp only [scoringTest, BodyResult.returned.injEq] at hb
      rw [← hb.2]
      exact ⟨Nat.lt_of_sub_eq_succ rfl, Nat.le_of_ble_eq_true rfl⟩
    · simp only [faultingTest] at hb
      cases hb
  have h := main_totals scenarioEnv oneFileArgv _ hs hsum
  exact ⟨⟨hs, hsum, hexact⟩, h.1, h.2 hexact hcount⟩

/-- C5 (witness): the scenario's registry with an assembler that rejects
    `prog.asm`: no test runs and the summary is `0/0`, `0%`, exit status `0`. -/
theorem main_of_assembly_failure_witness :
    (∃ f ∈ oneFileArgv.drop 1, positional f = true ∧ (asmResult brokenAsmEnv f).1 = false)
    ∧ main brokenAsmEnv oneFileArgv =
      { status := 0
        obj_filenames := ((oneFileArgv.drop 1).filter positional).map
          (fun f => (asmResult brokenAsmEnv f).2)
        trace := ((oneFileArgv.drop 1).filter positional).map asmEvent ++ [Event.setup]
        summary := some { total_points_earned := some 0, total_possible_points := 0
                          percent := some 0 } }
    ∧ (∀ ev ∈ (main brokenAsmEnv oneFileArgv).trace,
        (∃ f, ev = Event.convertBin f ∨ ev = Event.assemble f) ∨ ev = Event.setup) :=
  ⟨⟨"prog.asm".toList, by decide, by decide, by decide⟩,
   main_of_assembly_failure brokenAsmEnv oneFileArgv
     ⟨"prog.asm".toList, by decide, by decide, by decide⟩⟩

/-- C6 (witness): the faulting second test of the scenario, entered with 5 points
    earned of 10 possible: the totals become 5 of 30 and no teardown is called. -/
theorem runTests_fault_step_witness :
    ((loadObjects scenarioEnv
        (freshSim scenarioEnv false (faultingTest "second".toList 20))
        ["prog.asm.obj".toList]).1 = some ()
      ∧ (faultingTest "second".toList 20).test_func () = BodyResult.threw "fault".toList)
    ∧ (runTests scenarioEnv false ["prog.asm.obj".toList]
        { total_points_earned := some 5, total_possible_points := 10, trace := [] }
        [faultingTest "second".toList 20]
      = runTests scenarioEnv false ["prog.asm.obj".toList]
          { total_points_earned := some 5
            total_possible_points := (10 + 20) % 2 ^ 32
            trace := [] ++ bringupEvents (faultingTest "second".toList 20)
              ++ ["prog.asm.obj".toList].map (fun g => Event.loadObjectFile g true)
              ++ [Event.test_func "second".toList true] } []
      ∧ (∀ name, Event.testTeardown name ∉ bringupEvents (faultingTest "second".toList 20)
          ++ ["prog.asm.obj".toList].map (fun g => Event.loadObjectFile g true)
          ++ [Event.test_func "second".toList true])
      ∧ (main scenarioEnv oneFileArgv).summary.map
          (fun s => (s.total_points_earned, s.total_possible_points)) = some (some 5, 30)) :=
  ⟨⟨rfl, rfl⟩,
   runTests_fault_step scenarioEnv false ["prog.asm.obj".toList]
     { total_points_earned := some 5, total_possible_points := 10, trace := [] }
     (faultingTest "second".toList 20) [] () "fault".toList rfl rfl⟩

end Grader
